import Mathlib

/-!
Verification of the libyang XML data parser and YANG schema parser
(`src/parser_xml.c`, `src/parser_yang.c`) against the natural-language
specification.  C strings are modelled as `List Char` / `String`, machine
integers as `Nat`/`Int` with explicit bounds, `long double` quantities that
are exact in the source (64-bit integers divided by small powers of two)
as `ℚ`, and fallible code as `Except Err`.
-/

set_option maxRecDepth 4000
set_option linter.unusedVariables false

deriving instance DecidableEq for Except

namespace Libyang

/-- Error kinds of the library (spec section 7; `LYE_*` codes in the source).
    Only the kinds reachable from the embedded functions are listed. -/
inductive Err where
  | INVAL
  | OORVAL
  | INARG
  | INATTR
  | MISSATTR
  | TOOMANY
  | MCASEDATA
  | CIRCULAR
  | INT
deriving DecidableEq

/-- Model of the NUL terminator that ends every C string; reading past the end
    of the modelled character list yields this character. -/
def NUL : Char := Char.ofNat 0

/-- Read character `i` of a C string modelled as a `List Char`
    (the terminating NUL and everything past it read as `NUL`). -/
def getc (s : List Char) (i : Nat) : Char := s.getD i NUL

/-- Model of C `isspace` in the POSIX locale. -/
def isSpaceC (ch : Char) : Bool :=
  ch == ' ' || ch == '\t' || ch == '\n' || ch == '\x0b' || ch == '\x0c' || ch == '\r'

/-- Model of C `isdigit`. -/
def isDigitC (ch : Char) : Bool := '0' ≤ ch && ch ≤ '9'

/-- Sign of C `strcmp` on two strings (-1, 0 or 1; the source only ever uses
    the sign of the result). -/
def strcmpL : List Char → List Char → Int
  | [], [] => 0
  | [], _ :: _ => -1
  | _ :: _, [] => 1
  | a :: as, b :: bs =>
    if a.toNat < b.toNat then -1
    else if b.toNat < a.toNat then 1
    else strcmpL as bs

/-- Decoding of a boolean leaf: the `LY_TYPE_BOOL` branch of `_xml_get_value`
    (src/parser_xml.c lines 444-448).  The branch performs a single `strcmp`
    against `"true"`, storing 1 on equality and otherwise leaving the
    zero-initialised value; it has no failing path. -/
def xml_get_value_bool (value_str : String) : Except Err Bool :=
  if strcmpL value_str.toList "true".toList = 0 then .ok true else .ok false

/-! ### Models of `strtoull` / `strtoll` (libc collaborators of `parse_uint` / `parse_int`) -/

/-- Value of a character as a digit, as libc `strtol` understands digits. -/
def digitValC (ch : Char) : Option Nat :=
  if '0' ≤ ch ∧ ch ≤ '9' then some (ch.toNat - '0'.toNat)
  else if 'a' ≤ ch ∧ ch ≤ 'z' then some (ch.toNat - 'a'.toNat + 10)
  else if 'A' ≤ ch ∧ ch ≤ 'Z' then some (ch.toNat - 'A'.toNat + 10)
  else none

/-- Whether a character is a valid digit in the given base. -/
def isBaseDigitC (base : Nat) (ch : Char) : Bool :=
  match digitValC ch with
  | some v => decide (v < base)
  | none => false

/-- Accumulated numeric value of a digit string in the given base. -/
def digitsVal (base : Nat) (l : List Char) : Nat :=
  l.foldl (fun acc ch => acc * base + ((digitValC ch).getD 0)) 0

/-- Whether a string starts with a hexadecimal prefix `0x`/`0X` followed by a
    hex digit (the condition under which `strtol` consumes the prefix). -/
def hexPrefB : List Char → Bool
  | '0' :: x :: d :: _ => (x == 'x' || x == 'X') && isBaseDigitC 16 d
  | _ => false

/-- Whether a string starts with `0` (octal detection for base 0). -/
def leadZeroB : List Char → Bool
  | '0' :: _ => true
  | _ => false

/-- Result of a libc string-to-integer conversion: value, index one past the
    last consumed character (`endptr`), and whether `errno` was set to
    `ERANGE`.  If no digits were consumed `endIdx` is 0 (the original
    pointer) and the value is 0. -/
structure CParseU where
  uval : Nat
  endIdx : Nat
  erange : Bool
deriving DecidableEq

/-- Result of `strtoll`: as `CParseU` but signed. -/
structure CParseS where
  sval : Int
  endIdx : Nat
  erange : Bool
deriving DecidableEq

def ULLONG_MAX : Nat := 2 ^ 64 - 1
def LLONG_MAX : Int := 2 ^ 63 - 1
def LLONG_MIN : Int := -(2 ^ 63)

/-- Shared front of `strtoull`/`strtoll`: skip spaces, note the sign, detect
    the effective base, and take the digit run.  Returns
    (negative?, effective base, consumed length before digits, digits). -/
def strtoFront (s : List Char) (base : Nat) : Bool × Nat × Nat × List Char :=
  let wsLen := (s.takeWhile isSpaceC).length
  let afterWs := s.drop wsLen
  let signLen : Nat := match afterWs with
    | '-' :: _ => 1
    | '+' :: _ => 1
    | _ => 0
  let neg : Bool := match afterWs with
    | '-' :: _ => true
    | _ => false
  let body := afterWs.drop signLen
  let pre : Nat × Nat :=
    if hexPrefB body ∧ (base = 0 ∨ base = 16) then (16, 2)
    else if base = 0 ∧ leadZeroB body then (8, 0)
    else if base = 0 then (10, 0)
    else (base, 0)
  let digits := (body.drop pre.2).takeWhile (isBaseDigitC pre.1)
  (neg, pre.1, wsLen + signLen + pre.2, digits)

/-- Model of libc `strtoull` for a NUL-free string.  Overflow clamps to
    `ULLONG_MAX` with `ERANGE`; a leading minus negates modulo 2^64. -/
def strtoull_model (s : List Char) (base : Nat) : CParseU :=
  let f := strtoFront s base
  if f.2.2.2 = [] then ⟨0, 0, false⟩
  else
    let m := digitsVal f.2.1 f.2.2.2
    let endIdx := f.2.2.1 + f.2.2.2.length
    if m > ULLONG_MAX then ⟨ULLONG_MAX, endIdx, true⟩
    else ⟨(if f.1 then (2 ^ 64 - m) % 2 ^ 64 else m), endIdx, false⟩

/-- Model of libc `strtoll` for a NUL-free string.  Overflow clamps to
    `LLONG_MAX`/`LLONG_MIN` with `ERANGE`. -/
def strtoll_model (s : List Char) (base : Nat) : CParseS :=
  let f := strtoFront s base
  if f.2.2.2 = [] then ⟨0, 0, false⟩
  else
    let m : Int := (digitsVal f.2.1 f.2.2.2 : Nat)
    let v : Int := if f.1 then -m else m
    let endIdx := f.2.2.1 + f.2.2.2.length
    if v > LLONG_MAX then ⟨LLONG_MAX, endIdx, true⟩
    else if v < LLONG_MIN then ⟨LLONG_MIN, endIdx, true⟩
    else ⟨v, endIdx, false⟩

/-- Embedding of `parse_uint` (src/parser_xml.c lines 294-320): `strtoull`,
    then `OORVAL` on `errno` or a value above `max`, then `INVAL` when
    non-whitespace follows the consumed digits. -/
def parse_uint (str_val : String) (max : Nat) (base : Nat) : Except Err Nat :=
  let r := strtoull_model str_val.toList base
  if r.erange ∨ r.uval > max then .error .OORVAL
  else if (str_val.toList.drop r.endIdx).dropWhile isSpaceC ≠ [] then .error .INVAL
  else .ok r.uval

/-- Embedding of `parse_int` (src/parser_xml.c lines 265-292): `strtoll`,
    then `OORVAL` on `errno` or a value outside `[min, max]`, then `INVAL`
    when non-whitespace follows the consumed digits. -/
def parse_int (str_val : String) (min max : Int) (base : Nat) : Except Err Int :=
  let r := strtoll_model str_val.toList base
  if r.erange ∨ r.sval < min ∨ r.sval > max then .error .OORVAL
  else if (str_val.toList.drop r.endIdx).dropWhile isSpaceC ≠ [] then .error .INVAL
  else .ok r.sval

/-! ### `validate_length_range` (src/parser_xml.c lines 134-173)

The C function has three parallel copies of the same comparison logic for
unsigned (`uval`), signed (`sval`) and floating (`fval`) interval lists; the
embedding is a single definition generic over a linear order, instantiated
at `ℕ`, `ℤ` and `ℚ`.  The interval list is produced by
`resolve_len_ran_interval` (outside the sources under verification) and is
therefore a parameter. -/

/-- The interval loop of `validate_length_range`: starting from
    `ret = EXIT_FAILURE`, break with failure as soon as the value is below an
    interval's lower bound, break with success when it lies inside an
    interval, otherwise continue. -/
def vlrLoop {α : Type} [LinearOrder α] (v : α) : List (α × α) → Bool
  | [] => false
  | (mn, mx) :: rest =>
    if v < mn then false
    else if mn ≤ v ∧ v ≤ mx then true
    else vlrLoop v rest

/-- Embedding of `validate_length_range`: an empty interval list (no
    restriction resolved) accepts everything, otherwise the interval loop
    decides.  `true` means `EXIT_SUCCESS`; on `false` the source logs
    `LYE_OORVAL`. -/
def validate_length_range {α : Type} [LinearOrder α] (v : α) (intv : List (α × α)) : Bool :=
  match intv with
  | [] => true
  | l => vlrLoop v l

/-- The `LY_TYPE_UINT8` branch of `_xml_get_value` (src/parser_xml.c lines
    710-716): `parse_uint` with bound 255 and base 0, then the range check. -/
def xml_get_value_uint8 (value_str : String) (intv : List (Nat × Nat)) : Except Err Nat :=
  match parse_uint value_str 255 0 with
  | .error e => .error e
  | .ok u => if validate_length_range u intv then .ok u else .error .OORVAL

/-! ### The `LY_TYPE_DEC64` branch of `_xml_get_value` (src/parser_xml.c lines 450-522)

The branch normalises the lexical decimal into a plain integer string `dec`
carrying `fraction-digits` fractional digits (buffer of `DECSIZE` = 21
bytes), parses it with `parse_int` over the full int64 range, and range
checks `((long double)num) / (1 << dig)` against the resolved intervals.
The `long double` quotient of an int64 by a small power of two is exact, so
it is modelled as `ℚ`. -/

def DECSIZE : Nat := 21

/-- One execution of the normalisation `for` loop of the `LY_TYPE_DEC64`
    branch, with the C loop variables `i`, `c`, `j`, `d`, `found` as explicit
    state and the output buffer `dec` as an accumulator.  The `fuel`
    parameter only bounds the iteration count (each iteration advances `i`
    or `c`, so `2*DECSIZE + 2*|s| + 4` steps always suffice); exhausting it,
    like running past the buffer without the `break`, is modelled as the
    internal error. -/
def dec64normLoop (s : List Char) (dig : Nat) :
    Nat → Nat → Nat → Nat → Nat → Bool → List Char → Except Err (List Char)
  | 0, _, _, _, _, _, _ => .error .INT
  | fuel + 1, i, c, j, d, found, dec =>
    if i ≥ DECSIZE then .error .INT
    else
      let ch := getc s (c + i)
      if ch = '.' then
        -- found = 1; j = dig; i--; c++; continue (skips the j decrement)
        dec64normLoop s dig fuel i (c + 1) dig d true dec
      else if ch = NUL then
        -- c--
        let j' := if ¬found then dig else j
        if j' = 0 then .ok dec        -- dec[i] = NUL; break
        else if d + 1 > DECSIZE - 2 then .error .OORVAL
        else dec64normLoop s dig fuel (i + 1) (c - 1) (j' - 1) (d + 1) true (dec ++ ['0'])
      else
        if ¬isDigitC ch ∧ (i ≠ 0 ∨ getc s c ≠ '-') then .error .INVAL
        else
          let d' := if isDigitC ch then d + 1 else d
          if d' > DECSIZE - 2 ∨ (found ∧ j = 0) then .error .OORVAL
          else dec64normLoop s dig fuel (i + 1) c (if j ≠ 0 then j - 1 else j) d' found
                 (dec ++ [ch])

/-- Embedding of the `LY_TYPE_DEC64` branch of `_xml_get_value`: whitespace
    trimming and length check of the token, normalisation to the scaled
    integer string, 64-bit parse, then the range check of
    `num / 2 ^ fraction-digits` (the literal `1 << dig` of the source).
    Returns the scaled 64-bit value stored in `leaf->value.dec64`. -/
def xml_get_value_dec64 (value_str : String) (dig : Nat) (intv : List (ℚ × ℚ)) :
    Except Err Int :=
  let s := value_str.toList
  let c0 := (s.takeWhile isSpaceC).length
  let len := ((s.drop c0).takeWhile (fun ch => ¬isSpaceC ch)).length
  if len > DECSIZE then .error .INVAL
  else
    match dec64normLoop s dig (2 * DECSIZE + 2 * s.length + 4) 0 c0 0 0 false [] with
    | .error e => .error e
    | .ok dec =>
      match parse_int (String.mk dec) LLONG_MIN LLONG_MAX 10 with
      | .error e => .error e
      | .ok num =>
        if validate_length_range ((num : ℚ) / ((2 : ℚ) ^ dig)) intv then .ok num
        else .error .OORVAL

/-! ### `validate_pattern` (src/parser_xml.c lines 175-225)

A string-typed derivation chain is a list of pattern lists, innermost type
first, each level pointing at its base through `der`.  The POSIX regex
engine (`regcomp`/`regexec`, a libc collaborator) is abstracted as a
matcher `String → String → Bool` taking the built POSIX expression and the
input; `regexecLit` below models it faithfully for expressions whose core
contains no ERE metacharacters. -/

/-- A string-typed `lys_type` for pattern checking: its own pattern
    expressions (`info.str.patterns`, in array order) and, for a derived
    type, the `der` link to the base type. -/
inductive StrType where
  | base : List String → StrType
  | derv : List String → StrType → StrType

/-- Whether `pat` matches at the very start of `s` (C `strncmp(s, pat, |pat|) == 0`,
    with a short `s` failing on its terminator). -/
def leadMatch : List Char → List Char → Bool
  | [], _ => true
  | _ :: _, [] => false
  | a :: ps, b :: ss => a == b && leadMatch ps ss

/-- Whether `pat` matches at the very end of `s`. -/
def tailMatch (pat s : List Char) : Bool := leadMatch pat.reverse s.reverse

/-- The anchoring adjustment of `validate_pattern`: prepend `^` unless the
    expression already begins with `.*` (`strncmp(expr, ".*", 2)`), append
    `$` unless it already ends with `.*`
    (`strncmp(expr + strlen(expr) - 2, ".*", 2)`; for expressions of length
    < 2 that test reads before the buffer, modelled as not ending in
    `.*`). -/
def anchorAdjust (e : String) : String :=
  (if leadMatch ".*".toList e.toList then "" else "^") ++ e
    ++ (if tailMatch ".*".toList e.toList then "" else "$")

/-- Embedding of `validate_pattern`: recurse into the `der` chain first,
    then apply this level's patterns in order; any failure fails the
    whole check. -/
def validate_pattern (m : String → String → Bool) (str : String) : StrType → Bool
  | .base pats => pats.all (fun e => m (anchorAdjust e) str)
  | .derv pats d =>
    validate_pattern m str d && pats.all (fun e => m (anchorAdjust e) str)

/-- All pattern expressions along a derivation chain, ancestor-most first. -/
def chainPatterns : StrType → List String
  | .base pats => pats
  | .derv pats d => chainPatterns d ++ pats

/-- Whether `pat` occurs contiguously anywhere inside `s`. -/
def subMatch (pat : List Char) : List Char → Bool
  | [] => leadMatch pat []
  | s@(_ :: rest) => leadMatch pat s || subMatch pat rest

/-- Model of `regexec` (POSIX, `REG_EXTENDED | REG_NOSUB`) for expressions
    whose core holds no ERE metacharacters: an unanchored expression matches
    any occurrence inside the string, `^` pins the match to the start, `$`
    to the end. -/
def regexecLit (r s : String) : Bool :=
  let sl := s.toList
  match r.toList with
  | '^' :: r1 =>
    if r1.getLast? = some '$' then r1.dropLast == sl
    else leadMatch r1 sl
  | rl =>
    if rl.getLast? = some '$' then tailMatch rl.dropLast sl
    else subMatch rl sl

/-! ### Insert/value attribute checking in `xml_parse_data`
(src/parser_xml.c lines 814-867) -/

/-- The YANG metadata namespace `LY_NSYANG` (defined in the library's
    headers, outside the two source files). -/
def LY_NSYANG : String := "urn:ietf:params:xml:ns:yang:1"

/-- An XML attribute as the checks see it: whether it is a standard
    attribute (`LYXML_ATTR_STD`), its namespace (none when `attr->ns` is
    NULL), name and value. -/
structure Attr where
  std : Bool
  ns : Option String
  name : String
  val : String

/-- Whether the attribute survives the filter at the head of both loops:
    standard, with a namespace, of the given name, in the YANG metadata
    namespace. -/
def attrRelevant (what : String) (a : Attr) : Bool :=
  a.std && a.ns.isSome && (a.name == what) && (a.ns == some LY_NSYANG)

/-- First attribute loop of the edit-config block: scan `insert`
    attributes, threading the counter `i` (0 = none seen, 1 = first/last,
    2 = before/after). -/
def insertLoop (userOrdered : Bool) : List Attr → Nat → Except Err Nat
  | [], i => .ok i
  | a :: rest, i =>
    if ¬attrRelevant "insert" a then insertLoop userOrdered rest i
    else if ¬userOrdered then .error .INATTR
    else if i ≠ 0 then .error .TOOMANY
    else if a.val = "first" ∨ a.val = "last" then insertLoop userOrdered rest 1
    else if a.val = "before" ∨ a.val = "after" then insertLoop userOrdered rest 2
    else .error .INARG

/-- Second attribute loop: scan `value` attributes, rejecting them unless a
    `before`/`after` insert was seen (`i ≥ 2`) and counting them on top of
    `i`. -/
def valueLoop : List Attr → Nat → Except Err Nat
  | [], i => .ok i
  | a :: rest, i =>
    if ¬attrRelevant "value" a then valueLoop rest i
    else if i < 2 then .error .INATTR
    else valueLoop rest (i + 1)

/-- An `insert` attribute in the YANG metadata namespace. -/
def insAttr (v : String) : Attr := ⟨true, some LY_NSYANG, "insert", v⟩

/-- A `value` attribute in the YANG metadata namespace. -/
def valAttr (v : String) : Attr := ⟨true, some LY_NSYANG, "value", v⟩

/-- Embedding of the whole insert/value attribute block run in edit-config
    mode (`options & LYD_OPT_EDIT`): both loops, then the final `i = 2`
    (missing `value` for before/after → `MISSATTR`) and `i > 3` (more than
    one `value` → `TOOMANY`) checks. -/
def checkInsertAttrs (userOrdered : Bool) (attrs : List Attr) : Except Err Unit :=
  match insertLoop userOrdered attrs 0 with
  | .error e => .error e
  | .ok i =>
    match valueLoop attrs i with
    | .error e => .error e
    | .ok i =>
      if i = 2 then .error .MISSATTR
      else if i > 3 then .error .TOOMANY
      else .ok ()

/-! ### Circular-import detection in `yang_fill_import`
(src/parser_yang.c lines 107-131) -/

/-- A C string together with its allocation identity: the `id` stands for
    the address returned by `malloc`, so two equal-content strings from
    different allocations carry different `id`s and compare unequal under
    pointer comparison. -/
structure CStr where
  id : Nat
  content : String
deriving DecidableEq

/-- Embedding of the cycle check and push of `yang_fill_import`: walk
    `ctx->models.parsing` comparing the incoming module name `value` with
    each stack entry by pointer equality (`value ==
    module->ctx->models.parsing[count]`), failing on a hit, otherwise
    append `value` to the stack. -/
def yang_fill_import_check (parsing : List CStr) (value : CStr) :
    Except Err (List CStr) :=
  if parsing.any (fun e => e.id == value.id) then .error .CIRCULAR
  else .ok (parsing ++ [value])

/-! ### Choice-exclusivity check in `xml_parse_data`
(src/parser_xml.c lines 1085-1106) -/

/-- Schema node kinds needed by the choice check. -/
inductive NT where
  | container | leaf | leaflist | list | anyxml | choice | case | uses | grouping
deriving DecidableEq

/-- Description of a data node's schema parent as the check reads it:
    node kind, identity (address) and, when present, the identity of its own
    parent.  (The source dereferences `diter->schema->parent` without a NULL
    test, so only data nodes whose schema has a parent are modelled.) -/
structure PInfo where
  ntype : NT
  id : Nat
  parentId : Option Nat
deriving DecidableEq

/-- Embedding of the choice-exclusivity block: skipped in filter mode or
    when the new node's schema parent is not a case/choice; otherwise
    compute `cs` (the case, if any) and `ch` (the choice) and error with
    `MCASEDATA` when any earlier sibling's schema parent is the same choice
    directly, any case while the new node sits directly under its choice, or
    a different case of the same choice. -/
def choiceCaseCheck (filter : Bool) (curParent : Option PInfo)
    (prevs : List PInfo) : Except Err Unit :=
  if filter then .ok ()
  else
    match curParent with
    | none => .ok ()
    | some p =>
      if p.ntype = NT.case ∨ p.ntype = NT.choice then
        let cs : Option PInfo := if p.ntype = NT.choice then none else some p
        let chId : Option Nat := if p.ntype = NT.choice then some p.id else p.parentId
        if prevs.any (fun d =>
            (d.ntype = NT.choice ∧ some d.id = chId)
            ∨ (d.ntype = NT.case ∧ cs = none)
            ∨ (d.ntype = NT.case ∧ cs.isSome ∧ some d.id ≠ cs.map PInfo.id
                ∧ d.parentId = chId))
        then .error .MCASEDATA
        else .ok ()
      else .ok ()

/-- One parsing step at the choice checkpoint: on success the new node
    (represented by its schema-parent descriptor) joins the sibling list, on
    `MCASEDATA` the error path of `xml_parse_data` unlinks and frees it, so
    no list results. -/
def xml_parse_data_choice_step (filter : Bool) (prevs : List PInfo)
    (cur : PInfo) : Except Err (List PInfo) :=
  match choiceCaseCheck filter (some cur) prevs with
  | .error e => .error e
  | .ok _ => .ok (prevs ++ [cur])

/-! ### `yang_read_revision` (src/parser_yang.c lines 289-311) -/

/-- A `lys_revision` record: date string plus optional description and
    reference. -/
structure LysRevision where
  date : String
  dsc : Option String
  ref : Option String
deriving DecidableEq

/-- Embedding of `yang_read_revision` on the revision array (modelled as the
    list of its first `rev_size` entries; the fresh slot is zeroed by
    `yang_elem_of_array`).  Returns the new array and the index of the entry
    the caller receives (`retval`) for the following `description` /
    `reference` statements.  When the new date is strictly newer than the
    entry at index 0, the index-0 record (date, description and reference)
    moves to the fresh last slot and the new date takes index 0 with cleared
    description and reference. -/
def yang_read_revision (revs : List LysRevision) (value : String) :
    List LysRevision × Nat :=
  match revs with
  | [] => ([⟨value, none, none⟩], 0)
  | r0 :: rest =>
    if strcmpL r0.date.toList value.toList = -1 then
      (⟨value, none, none⟩ :: rest ++ [r0], 0)
    else (r0 :: rest ++ [⟨value, none, none⟩], revs.length)

/-- Date order used by the revision invariant: `a` is strictly older than
    `b` when `strcmp` on the date strings is negative. -/
def revLt (a b : String) : Prop := strcmpL a.toList b.toList = -1

/-- The invariant of the revision array: the entry at index 0 is not older
    than any other entry. -/
def headNewest : List LysRevision → Prop
  | [] => True
  | r :: rest => ∀ x ∈ rest, ¬revLt r.date x.date

/-! ### The `LY_TYPE_BITS` branch of `_xml_get_value`
(src/parser_xml.c lines 391-442)

The branch walks the value string token by token while the index `i` into
the resolved bit array only ever advances; each token must therefore hit a
definition at an index at least one past the previous hit. -/

/-- Fact used by the progress argument: `dropWhile` never lengthens a
    list. -/
def lenDropWhileLe (p : Char → Bool) (l : List Char) :
    (l.dropWhile p).length ≤ l.length :=
  (List.dropWhile_sublist p).length_le

/-- Helper for the progress argument of the token scan: dropping a
    maximal space run and then a maximal non-space run from a non-empty
    string shortens it. -/
def drop2_length_lt (p : Char → Bool) :
    ∀ s : List Char, s ≠ [] →
      ((s.dropWhile p).dropWhile (fun ch => ¬p ch)).length < s.length := by
  intro s hs
  match s with
  | [] => exact absurd rfl hs
  | a :: s' =>
    by_cases hp : p a
    · have h1 : (a :: s').dropWhile p = s'.dropWhile p := by simp [List.dropWhile, hp]
      calc ((a :: s').dropWhile p |>.dropWhile (fun ch => ¬p ch)).length
          ≤ ((a :: s').dropWhile p).length := lenDropWhileLe _ _
        _ = (s'.dropWhile p).length := by rw [h1]
        _ ≤ s'.length := lenDropWhileLe _ _
        _ < (a :: s').length := by simp
    · have h1 : (a :: s').dropWhile p = a :: s' := by simp [List.dropWhile, hp]
      rw [h1]
      have h2 : (a :: s').dropWhile (fun ch => ¬p ch) = s'.dropWhile (fun ch => ¬p ch) := by
        simp [List.dropWhile, hp]
      rw [h2]
      calc (s'.dropWhile (fun ch => ¬p ch)).length
          ≤ s'.length := lenDropWhileLe _ _
        _ < (a :: s').length := by simp

/-- Search of the inner bit loop: starting from the current index `idx`,
    find the first bit definition whose name equals the token (the source's
    `!strncmp(name, &str[c], len) && !name[len]`). -/
def findFromAux (tok : List Char) : List (List Char) → Nat → Option Nat
  | [], _ => none
  | n :: rest, idx => if n = tok then some idx else findFromAux tok rest (idx + 1)

/-- Find the first index `≥ i` of a bit definition named `tok`. -/
def findFrom (names : List (List Char)) (i : Nat) (tok : List Char) : Option Nat :=
  findFromAux tok (names.drop i) i

/-- Embedding of the token scan of the `LY_TYPE_BITS` branch: while
    characters remain, skip spaces, take the token, search the bit array
    from the persistent index `i`; an exhausted search is `LYE_INVAL`, a hit
    stores the definition (modelled by recording the token and its index)
    and resumes the search one past the hit. -/
def bitsScan (names : List (List Char)) : List Char → Nat →
    Except Err (List (List Char × Nat))
  | s, i =>
    if hs : s = [] then .ok []
    else
      match findFrom names i ((s.dropWhile isSpaceC).takeWhile (fun ch => ¬isSpaceC ch)) with
      | none => .error .INVAL
      | some j =>
        match bitsScan names ((s.dropWhile isSpaceC).dropWhile (fun ch => ¬isSpaceC ch))
            (j + 1) with
        | .ok l => .ok (((s.dropWhile isSpaceC).takeWhile (fun ch => ¬isSpaceC ch), j) :: l)
        | .error e => .error e
termination_by s _ => s.length
decreasing_by
  exact drop2_length_lt isSpaceC s hs

/-- Decoding of a bits leaf: `xml_get_value_bits names str` scans the whole
    value string starting with index 0 (an absent/NULL value, which the
    branch accepts with no bits set, is modelled by the empty string). -/
def xml_get_value_bits (names : List (List Char)) (value_str : String) :
    Except Err (List (List Char × Nat)) :=
  bitsScan names value_str.toList 0

/-- The whitespace-separated tokens of a value string, exactly as the scan
    consumes them (including a final empty token when the string ends in
    whitespace, which the source then looks up like any other token). -/
def cTokenize : List Char → List (List Char)
  | s =>
    if s = [] then []
    else
      (s.dropWhile isSpaceC).takeWhile (fun ch => ¬isSpaceC ch)
        :: cTokenize ((s.dropWhile isSpaceC).dropWhile (fun ch => ¬isSpaceC ch))
termination_by s => s.length
decreasing_by
  rename_i hs
  exact drop2_length_lt isSpaceC s hs

/-! ### `get_next_union_type` and the `LY_TYPE_UNION` branch of
`_xml_get_value` (src/parser_xml.c lines 322-352 and 659-676)

A union's member array `info.uni.types` may contain nested unions, which
`get_next_union_type` enters in place, and a union type additionally chains
to its base through `der`, which is scanned after the members.  Member
types are identified by their address; the model identifies a type node by
its access path from the union the branch starts at: `some i` selects
member `i` of the current union, `none` follows the `der` link. -/

/-- One step of a type-node address: a member index or the `der` link. -/
abbrev UStep := Option Nat

/-- Address of a type node relative to the root union. -/
abbrev UPath := List UStep

mutual
/-- A `lys_type` as `get_next_union_type` sees it: a non-union type (with
    its `base` tag, over which the per-base decoders dispatch), or a union
    with its member array and optional `der` link. -/
inductive Ty where
  | atom : Nat → Ty
  | uni : TyList → TyDer → Ty

/-- The member array `info.uni.types` of a union. -/
inductive TyList where
  | nil : TyList
  | cons : Ty → TyList → TyList

/-- The optional `der` link of a union type. -/
inductive TyDer where
  | none : TyDer
  | some : Ty → TyDer
end

mutual
/-- All non-union alternatives reachable from a type node at address `ctx`,
    in the order `get_next_union_type` enumerates them: members first (each
    nested union flattened in place), then the `der` chain.  Each entry is
    the alternative's address paired with its `base`. -/
def flattenT : UPath → Ty → List (UPath × Nat)
  | ctx, .atom b => [(ctx, b)]
  | ctx, .uni alts der => flattenL ctx 0 alts ++ flattenD ctx der

/-- Flattening of a member array starting at member index `i`. -/
def flattenL : UPath → Nat → TyList → List (UPath × Nat)
  | _, _, .nil => []
  | ctx, i, .cons a rest =>
    flattenT (ctx ++ [some i]) a ++ flattenL ctx (i + 1) rest

/-- Flattening of the `der` link. -/
def flattenD : UPath → TyDer → List (UPath × Nat)
  | _, .none => []
  | ctx, .some d => flattenT (ctx ++ [Option.none]) d
end

mutual
/-- Embedding of `get_next_union_type` on the node at address `ctx`:
    `prev` is the `prev_type` pointer (`none` models NULL) and `found` the
    shared `*found` flag; the result pairs the returned type (its address
    and base) with the final value of the flag.  On a non-union node the
    member tests of the C loop apply: return it when `prev` is NULL or the
    flag is set, set the flag when it is `prev` itself. -/
def gnextT : UPath → Ty → Option UPath → Bool → Option (UPath × Nat) × Bool
  | ctx, .atom b, prev, found =>
    if prev = Option.none ∨ found then (some (ctx, b), found)
    else if prev = some ctx then (Option.none, true)
    else (Option.none, found)
  | ctx, .uni alts der, prev, found =>
    match gnextL ctx 0 alts prev found with
    | (some x, f) => (some x, f)
    | (Option.none, f) => gnextD ctx der prev f

/-- The member loop of `get_next_union_type`. -/
def gnextL : UPath → Nat → TyList → Option UPath → Bool → Option (UPath × Nat) × Bool
  | _, _, .nil, _, found => (Option.none, found)
  | ctx, i, .cons a rest, prev, found =>
    match gnextT (ctx ++ [some i]) a prev found with
    | (some x, f) => (some x, f)
    | (Option.none, f) => gnextL ctx (i + 1) rest prev f

/-- The trailing `der` scan of `get_next_union_type`. -/
def gnextD : UPath → TyDer → Option UPath → Bool → Option (UPath × Nat) × Bool
  | _, .none, _, found => (Option.none, found)
  | ctx, .some d, prev, found => gnextT (ctx ++ [Option.none]) d prev found
end

/-- Reference behaviour of `get_next_union_type` over the flattened
    alternative list: scan for `prev`, return the element after it. -/
def specFind (p : UPath) : List (UPath × Nat) → Option (UPath × Nat) × Bool
  | [] => (Option.none, false)
  | x :: rest => if x.1 = p then (rest.head?, true) else specFind p rest

/-- Reference behaviour of `get_next_union_type`: with no predecessor (or
    the flag already set) the first alternative, otherwise the successor of
    `prev` in the flattened list. -/
def specNext (l : List (UPath × Nat)) (prev : Option UPath) (found : Bool) :
    Option (UPath × Nat) × Bool :=
  match prev, found with
  | Option.none, f => (l.head?, f)
  | some _, true => (l.head?, true)
  | some p, false => specFind p l

/-- The iteration of the `LY_TYPE_UNION` branch: repeatedly ask
    `get_next_union_type` for the next alternative (resetting `found` to 0
    before each call, as the `for` header does) and stop at the first
    alternative whose recursive `_xml_get_value` succeeds.  `dec`
    abstracts that recursive decode: whether decoding the value against the
    type node at a given address succeeds.  The loop of the source has no
    explicit bound; the fuel only caps the iteration count and
    `|flattened| + 1` is proved sufficient. -/
def unionLoop (t : Ty) (dec : UPath → Bool) : Nat → Option UPath → Option (UPath × Nat)
  | 0, _ => Option.none
  | fuel + 1, prev =>
    match (gnextT [] t prev false).1 with
    | Option.none => Option.none
    | some (p, b) => if dec p then some (p, b) else unionLoop t dec fuel (some p)

/-- Embedding of the `LY_TYPE_UNION` branch of `_xml_get_value`: iterate the
    alternatives; on success `leaf->value_type` becomes the chosen
    alternative's base, with no alternative left the branch fails with
    `LYE_INVAL`. -/
def xml_get_value_union (t : Ty) (dec : UPath → Bool) : Except Err Nat :=
  match unionLoop t dec ((flattenT [] t).length + 1) Option.none with
  | some x => .ok x.2
  | Option.none => .error .INVAL

/-! ## Supporting lemmas -/

/-- The sign of `strcmp` is zero exactly on equal strings. -/
theorem strcmpL_eq_zero_iff : ∀ a b : List Char, strcmpL a b = 0 ↔ a = b := by
  intro a
  induction a with
  | nil => intro b; cases b <;> simp [strcmpL]
  | cons x xs ih =>
    intro b
    cases b with
    | nil => simp [strcmpL]
    | cons y ys =>
      by_cases h1 : x.toNat < y.toNat
      · simp only [strcmpL, if_pos h1]
        constructor
        · intro h; exact absurd h (by decide)
        · rintro ⟨rfl, rfl⟩; omega
      · by_cases h2 : y.toNat < x.toNat
        · simp only [strcmpL, if_neg h1, if_pos h2]
          constructor
          · intro h; exact absurd h (by decide)
          · rintro ⟨rfl, rfl⟩; omega
        · have hxy : x = y := by
            have h3 : x.toNat = y.toNat := by omega
            rw [← Char.ofNat_toNat x, ← Char.ofNat_toNat y, h3]
          simp [strcmpL, if_neg h1, if_neg h2, hxy, ih ys]

/-- Completeness and soundness of the interval loop on a min-sorted list. -/
theorem vlrLoop_iff {α : Type} [LinearOrder α] (v : α) :
    ∀ l : List (α × α), l.Pairwise (fun a b => a.1 ≤ b.1) →
      (vlrLoop v l = true ↔ ∃ p ∈ l, p.1 ≤ v ∧ v ≤ p.2) := by
  intro l
  induction l with
  | nil => simp [vlrLoop]
  | cons hd tl ih =>
    intro hpw
    obtain ⟨mn, mx⟩ := hd
    rw [List.pairwise_cons] at hpw
    obtain ⟨hhd, htl⟩ := hpw
    by_cases h1 : v < mn
    · simp only [vlrLoop, if_pos h1]
      constructor
      · intro h; exact absurd h (by decide)
      · rintro ⟨p, hp, hp1, hp2⟩
        rcases List.mem_cons.mp hp with rfl | hmem
        · exact absurd hp1 (not_le.mpr h1)
        · exact absurd (le_trans (hhd p hmem) hp1) (not_le.mpr h1)
    · by_cases h2 : mn ≤ v ∧ v ≤ mx
      · simp only [vlrLoop, if_neg h1, if_pos h2]
        exact ⟨fun _ => ⟨(mn, mx), List.mem_cons_self _ _, h2⟩, fun _ => trivial⟩
      · simp only [vlrLoop, if_neg h1, if_neg h2]
        rw [ih htl]
        constructor
        · rintro ⟨p, hp, h⟩; exact ⟨p, List.mem_cons_of_mem _ hp, h⟩
        · rintro ⟨p, hp, hp1, hp2⟩
          rcases List.mem_cons.mp hp with rfl | hmem
          · exact absurd ⟨hp1, hp2⟩ h2
          · exact ⟨p, hmem, hp1, hp2⟩

/-! ## Claim theorems -/

/-- C1 (counter-evidence, code bug): on a decimal64 leaf with
    fraction-digits 1, resolved range 2.0..3.0 and lexical value "2.5", the
    decoder normalises to the scaled integer 25 but range checks
    25 / 2^1 = 12.5 (the source's `1 << dig`), rejecting the value with
    `OORVAL`; the claim's check of the scaled value divided by
    10^fraction-digits (25 / 10 = 2.5) would accept it. -/
theorem dec64_range_check_divides_by_two_pow :
    xml_get_value_dec64 "2.5" 1 [((2 : ℚ), 3)] = .error .OORVAL
    ∧ validate_length_range ((25 : ℚ) / 10 ^ 1) [((2 : ℚ), 3)] = true := by
  constructor
  · have key : xml_get_value_dec64 "2.5" 1 [((2 : ℚ), 3)]
        = (if validate_length_range ((25 : ℚ) / (2 : ℚ) ^ 1) [((2 : ℚ), 3)] then .ok 25
           else .error .OORVAL) := rfl
    have h3 : validate_length_range ((25 : ℚ) / (2 : ℚ) ^ 1) [((2 : ℚ), 3)] = false := by
      simp [validate_length_range, vlrLoop]
      norm_num
    rw [key, h3]
    rfl
  · simp [validate_length_range, vlrLoop]
    norm_num

/-- C2 (counterexample): decoding a boolean leaf from the lexical value
    "banana" succeeds (with the value false), refuting the claim that any
    lexical value other than "true" / "false" makes decoding fail. -/
theorem bool_decode_accepts_nontrue :
    xml_get_value_bool "banana" = .ok false := by decide

/-- C2 (amended): decoding a boolean leaf never fails; the stored value is
    true exactly when the lexical value is the string "true" and false for
    every other lexical value. -/
theorem bool_decode_total (s : String) :
    (xml_get_value_bool s = .ok true ↔ s = "true")
    ∧ (s ≠ "true" → xml_get_value_bool s = .ok false) := by
  by_cases hc : strcmpL s.toList "true".toList = 0
  · have hs : s = "true" := String.ext ((strcmpL_eq_zero_iff _ _).mp hc)
    subst hs
    exact ⟨⟨fun _ => rfl, fun _ => by decide⟩, fun h => absurd rfl h⟩
  · have hb : xml_get_value_bool s = .ok false := by
      unfold xml_get_value_bool
      rw [if_neg hc]
    refine ⟨⟨fun h => ?_, fun h => ?_⟩, fun _ => hb⟩
    · rw [hb] at h
      exact absurd h (by decide)
    · subst h
      exact absurd (by decide : strcmpL "true".toList "true".toList = 0) hc

/-- C2 witness: the amended theorem applied at the lexical value "0". -/
theorem bool_decode_total_witness :
    xml_get_value_bool "0" = .ok false :=
  (bool_decode_total "0").2 (by decide)

/-- C4: with a non-empty min-sorted interval list, `validate_length_range`
    accepts a value exactly when some interval contains it; concretely, for
    a uint8 leaf restricted to 0..10|20..30 the values 5 and 25 decode while
    15 and 31 fail with `OORVAL`. -/
theorem uint8_multi_interval_range :
    (∀ (α : Type) [LinearOrder α] (v : α) (l : List (α × α)), l ≠ [] →
        l.Pairwise (fun a b => a.1 ≤ b.1) →
        (validate_length_range v l = true ↔ ∃ p ∈ l, p.1 ≤ v ∧ v ≤ p.2))
    ∧ xml_get_value_uint8 "5" [(0, 10), (20, 30)] = .ok 5
    ∧ xml_get_value_uint8 "15" [(0, 10), (20, 30)] = .error .OORVAL
    ∧ xml_get_value_uint8 "25" [(0, 10), (20, 30)] = .ok 25
    ∧ xml_get_value_uint8 "31" [(0, 10), (20, 30)] = .error .OORVAL := by
  refine ⟨?_, by decide, by decide, by decide, by decide⟩
  intro α _ v l hne hpw
  have hv : validate_length_range v l = vlrLoop v l := by
    cases l with
    | nil => exact absurd rfl hne
    | cons a t => rfl
  rw [hv]
  exact vlrLoop_iff v l hpw

/-- C4 witness: the interval characterisation applied to the value 25 and
    the interval list of the concrete scenario. -/
theorem uint8_multi_interval_range_witness :
    validate_length_range (25 : ℕ) [(0, 10), (20, 30)] = true
    ↔ ∃ p ∈ [((0 : ℕ), (10 : ℕ)), (20, 30)], p.1 ≤ 25 ∧ 25 ≤ p.2 :=
  uint8_multi_interval_range.1 ℕ 25 [(0, 10), (20, 30)] (by decide) (by decide)

/-- C7 (counter-evidence, code bug): the cycle check of `yang_fill_import`
    compares the incoming module name with the parsing-stack entries by
    pointer, so a name equal in content but held in a different allocation
    (as every re-parsed import name is) passes the check and the import
    proceeds instead of failing with the circular-import error. -/
theorem circular_import_compares_pointers :
    yang_fill_import_check [⟨0, "A"⟩] ⟨1, "A"⟩ = .ok [⟨0, "A"⟩, ⟨1, "A"⟩]
    ∧ (⟨0, "A"⟩ : CStr).content = (⟨1, "A"⟩ : CStr).content := by
  exact ⟨by decide, rfl⟩

/-- Pattern validation applies exactly the anchored patterns of the whole
    derivation chain. -/
theorem validate_pattern_chain (m : String → String → Bool) (str : String) :
    ∀ t : StrType,
      validate_pattern m str t = (chainPatterns t).all (fun e => m (anchorAdjust e) str) := by
  intro t
  induction t with
  | base pats => rfl
  | derv pats d ih => simp [validate_pattern, chainPatterns, ih, List.all_append]

/-- C5: pattern checking walks the derivation chain ancestor-most first and
    applies every pattern with an implicit begin anchor (unless the
    expression starts with `.*`) and end anchor (unless it ends with `.*`);
    consequently the literal pattern "abc" accepts exactly "abc" and rejects
    "abcd" even though the unanchored expression matches its prefix. -/
theorem string_patterns_anchored_chain :
    (∀ (m : String → String → Bool) (str : String) (t : StrType),
        validate_pattern m str t = (chainPatterns t).all (fun e => m (anchorAdjust e) str))
    ∧ chainPatterns (.derv ["b"] (.base ["a"])) = ["a", "b"]
    ∧ anchorAdjust "abc" = "^abc$"
    ∧ anchorAdjust ".*abc.*" = ".*abc.*"
    ∧ validate_pattern regexecLit "abc" (.base ["abc"]) = true
    ∧ validate_pattern regexecLit "abcd" (.base ["abc"]) = false
    ∧ regexecLit "abc" "abcd" = true := by
  exact ⟨validate_pattern_chain, rfl, by decide, by decide, by decide, by decide, by decide⟩

/-- C6: in edit-config mode on a user-ordered node, the `insert` attribute
    admits only first/last/before/after (anything else is rejected);
    before/after with no `value` attribute fails with `MISSATTR`; a second
    `value` attribute fails with `TOOMANY`, as does a second `insert`
    attribute; the well-formed combinations succeed. -/
theorem edit_insert_value_attr_rules :
    (∀ v, v ∉ (["first", "last", "before", "after"] : List String) →
        checkInsertAttrs true [insAttr v] = .error .INARG)
    ∧ (∀ v, v = "before" ∨ v = "after" →
        checkInsertAttrs true [insAttr v] = .error .MISSATTR)
    ∧ (∀ v, v = "before" ∨ v = "after" → ∀ x y : String,
        checkInsertAttrs true [insAttr v, valAttr x, valAttr y] = .error .TOOMANY)
    ∧ (∀ v, v ∈ (["first", "last", "before", "after"] : List String) → ∀ w : String,
        checkInsertAttrs true [insAttr v, insAttr w] = .error .TOOMANY)
    ∧ checkInsertAttrs true [insAttr "first"] = .ok ()
    ∧ (∀ x, checkInsertAttrs true [insAttr "after", valAttr x] = .ok ()) := by
  refine ⟨?_, ?_, ?_, ?_, by decide, ?_⟩
  · intro v hv
    simp only [List.mem_cons, List.not_mem_nil, or_false, not_or] at hv
    obtain ⟨h1, h2, h3, h4⟩ := hv
    simp [checkInsertAttrs, insertLoop, valueLoop, insAttr, attrRelevant, h1, h2, h3, h4]
  · intro v hv
    rcases hv with rfl | rfl <;> decide
  · intro v hv x y
    rcases hv with rfl | rfl <;>
      simp [checkInsertAttrs, insertLoop, valueLoop, insAttr, valAttr, attrRelevant]
  · intro v hv w
    simp only [List.mem_cons, List.not_mem_nil, or_false] at hv
    rcases hv with rfl | rfl | rfl | rfl <;>
      simp [checkInsertAttrs, insertLoop, valueLoop, insAttr, attrRelevant]
  · intro x
    simp [checkInsertAttrs, insertLoop, valueLoop, insAttr, valAttr, attrRelevant]

/-- C6 witness: `insert="before"` with no `value` attribute fails with
    `MISSATTR`. -/
theorem edit_insert_value_attr_rules_witness :
    checkInsertAttrs true [insAttr "before"] = .error .MISSATTR :=
  edit_insert_value_attr_rules.2.1 "before" (Or.inl rfl)

/-- C8: when a node whose schema parent is case `b` of choice `c` is parsed
    (outside filter mode) and some earlier data sibling's schema parent is a
    different case `a` of the same choice, the step fails with `MCASEDATA`
    and the node is not added to the sibling list. -/
theorem choice_two_cases_mcasedata (a b c : Nat) (hab : a ≠ b) (prevs : List PInfo)
    (hmem : (⟨NT.case, a, some c⟩ : PInfo) ∈ prevs) :
    xml_parse_data_choice_step false prevs ⟨NT.case, b, some c⟩ = .error .MCASEDATA := by
  have hch : choiceCaseCheck false (some ⟨NT.case, b, some c⟩) prevs = .error .MCASEDATA := by
    unfold choiceCaseCheck
    simp only [Bool.false_eq_true, if_false,
      if_neg (show ¬(NT.case = NT.choice) from by decide),
      eq_self_iff_true, true_or, if_true]
    split
    · rfl
    · rename_i h
      exfalso
      apply h
      rw [List.any_eq_true]
      exact ⟨⟨NT.case, a, some c⟩, hmem, by simp [hab]⟩
  unfold xml_parse_data_choice_step
  rw [hch]

/-- C8 witness: one leaf from case 1 and one from case 2 of choice 3. -/
theorem choice_two_cases_mcasedata_witness :
    xml_parse_data_choice_step false [⟨NT.case, 1, some 3⟩] ⟨NT.case, 2, some 3⟩
      = .error .MCASEDATA :=
  choice_two_cases_mcasedata 1 2 3 (by decide) [⟨NT.case, 1, some 3⟩] (by decide)

/-- Transitivity of the strict `strcmp` order. -/
theorem strcmpL_trans : ∀ a b c : List Char, strcmpL a b = -1 → strcmpL b c = -1 →
    strcmpL a c = -1 := by
  intro a
  induction a with
  | nil =>
    intro b c hab hbc
    cases b with
    | nil => exact absurd hab (by decide)
    | cons y ys =>
      cases c with
      | nil => exact absurd hbc (by simp [strcmpL])
      | cons z zs => rfl
  | cons x xs ih =>
    intro b c hab hbc
    cases b with
    | nil => exact absurd hab (by simp [strcmpL])
    | cons y ys =>
      cases c with
      | nil => exact absurd hbc (by simp [strcmpL])
      | cons z zs =>
        simp only [strcmpL] at hab hbc ⊢
        by_cases h1 : x.toNat < y.toNat
        · by_cases h2 : y.toNat < z.toNat
          · rw [if_pos (by omega)]
          · rw [if_pos h1] at hab
            by_cases h3 : z.toNat < y.toNat
            · rw [if_neg h2, if_pos h3] at hbc
              exact absurd hbc (by decide)
            · have : y.toNat = z.toNat := by omega
              rw [if_pos (by omega)]
        · by_cases h1' : y.toNat < x.toNat
          · rw [if_neg h1, if_pos h1'] at hab
            exact absurd hab (by decide)
          · have hxy : x.toNat = y.toNat := by omega
            rw [if_neg h1, if_neg h1'] at hab
            by_cases h2 : y.toNat < z.toNat
            · rw [if_pos (by omega)]
            · by_cases h3 : z.toNat < y.toNat
              · rw [if_neg h2, if_pos h3] at hbc
                exact absurd hbc (by decide)
              · rw [if_neg h2, if_neg h3] at hbc
                rw [if_neg (by omega), if_neg (by omega)]
                exact ih ys zs hab hbc

/-- Asymmetry of the strict `strcmp` order. -/
theorem strcmpL_asymm : ∀ a b : List Char, strcmpL a b = -1 → ¬strcmpL b a = -1 := by
  intro a
  induction a with
  | nil =>
    intro b hab
    cases b with
    | nil => exact absurd hab (by decide)
    | cons y ys => simp [strcmpL]
  | cons x xs ih =>
    intro b hab
    cases b with
    | nil => exact absurd hab (by simp [strcmpL])
    | cons y ys =>
      simp only [strcmpL] at hab ⊢
      by_cases h1 : x.toNat < y.toNat
      · rw [if_neg (by omega), if_pos h1]
        decide
      · by_cases h2 : y.toNat < x.toNat
        · rw [if_neg h1, if_pos h2] at hab
          exact absurd hab (by decide)
        · rw [if_neg h1, if_neg h2] at hab
          rw [if_neg h2, if_neg h1]
          exact ih ys hab

/-- Preservation of the newest-first invariant by one `yang_read_revision`. -/
theorem yang_read_revision_pres (revs : List LysRevision) (v : String)
    (h : headNewest revs) : headNewest (yang_read_revision revs v).1 := by
  cases revs with
  | nil =>
    intro x hx
    exact absurd hx (List.not_mem_nil x)
  | cons r0 rest =>
    rw [show yang_read_revision (r0 :: rest) v
        = (if strcmpL r0.date.toList v.toList = -1
           then (⟨v, none, none⟩ :: rest ++ [r0], 0)
           else (r0 :: rest ++ [⟨v, none, none⟩], (r0 :: rest).length)) from rfl]
    by_cases hlt : strcmpL r0.date.toList v.toList = -1
    · rw [if_pos hlt]
      intro x hx
      rcases List.mem_append.mp hx with hx1 | hx2
      · intro hvx
        exact h x hx1 (strcmpL_trans _ _ _ hlt hvx)
      · rcases List.mem_singleton.mp hx2 with rfl
        exact strcmpL_asymm _ _ hlt
    · rw [if_neg hlt]
      intro x hx
      rcases List.mem_append.mp hx with hx1 | hx2
      · exact h x hx1
      · rcases List.mem_singleton.mp hx2 with rfl
        exact hlt

/-- C9: after any sequence of revision insertions starting from the empty
    array, index 0 holds a lexicographically greatest revision date; on a
    swap (a strictly newer date arriving) the previous index-0 record moves
    to the end with its description and reference intact, the new date takes
    index 0 with cleared description and reference, and the caller is handed
    index 0. -/
theorem revision_newest_first :
    (∀ dates : List String,
        headNewest (dates.foldl (fun rs d => (yang_read_revision rs d).1) []))
    ∧ (∀ (r0 : LysRevision) (rest : List LysRevision) (v : String),
        revLt r0.date v →
        (yang_read_revision (r0 :: rest) v).1.head? = some ⟨v, none, none⟩
          ∧ (yang_read_revision (r0 :: rest) v).1.getLast? = some r0
          ∧ (yang_read_revision (r0 :: rest) v).2 = 0) := by
  constructor
  · intro dates
    have main : ∀ (ds : List String) (rs : List LysRevision), headNewest rs →
        headNewest (ds.foldl (fun rs d => (yang_read_revision rs d).1) rs) := by
      intro ds
      induction ds with
      | nil => intro rs h; exact h
      | cons d ds ih =>
        intro rs h
        exact ih _ (yang_read_revision_pres rs d h)
    exact main dates [] trivial
  · intro r0 rest v hlt
    rw [show yang_read_revision (r0 :: rest) v
        = (if strcmpL r0.date.toList v.toList = -1
           then (⟨v, none, none⟩ :: rest ++ [r0], 0)
           else (r0 :: rest ++ [⟨v, none, none⟩], (r0 :: rest).length)) from rfl]
    rw [if_pos (show strcmpL r0.date.toList v.toList = -1 from hlt)]
    refine ⟨rfl, ?_, rfl⟩
    show ((⟨v, none, none⟩ : LysRevision) :: (rest ++ [r0])).getLast? = some r0
    rw [← List.cons_append, List.getLast?_concat]

/-- The inner search starting at `idx` only finds entries at or past `idx`
    whose name equals the token. -/
theorem findFromAux_spec (tok : List Char) :
    ∀ (l : List (List Char)) (idx j : Nat), findFromAux tok l idx = some j →
      idx ≤ j ∧ l[j - idx]? = some tok := by
  intro l
  induction l with
  | nil => intro idx j h; exact absurd h (by simp [findFromAux])
  | cons n rest ih =>
    intro idx j h
    unfold findFromAux at h
    by_cases hn : n = tok
    · rw [if_pos hn] at h
      injection h with h
      subst h
      simp [hn]
    · rw [if_neg hn] at h
      obtain ⟨h1, h2⟩ := ih (idx + 1) j h
      refine ⟨by omega, ?_⟩
      have he : j - idx = (j - (idx + 1)) + 1 := by omega
      rw [he]
      simpa using h2

/-- A hit of the bit search lies at or past the persistent index and names
    the token. -/
theorem findFrom_spec (names : List (List Char)) (i : Nat) (tok : List Char) (j : Nat)
    (h : findFrom names i tok = some j) : i ≤ j ∧ names[j]? = some tok := by
  obtain ⟨h1, h2⟩ := findFromAux_spec tok (names.drop i) i j h
  refine ⟨h1, ?_⟩
  rw [List.getElem?_drop] at h2
  rwa [show i + (j - i) = j by omega] at h2

/-- A successful bits scan consumes exactly the whitespace-separated tokens,
    hits strictly increasing definition indices all at or past the start
    index, and records the matching names. -/
theorem bitsScan_ok_spec (names : List (List Char)) :
    ∀ (n : Nat) (s : List Char) (i : Nat) (l : List (List Char × Nat)), s.length ≤ n →
      bitsScan names s i = .ok l →
      l.map Prod.fst = cTokenize s
      ∧ List.Chain' (· < ·) (l.map Prod.snd)
      ∧ (∀ x ∈ l, i ≤ x.2 ∧ names[x.2]? = some x.1) := by
  intro n
  induction n with
  | zero =>
    intro s i l hn h
    have hs : s = [] := List.length_eq_zero.mp (Nat.le_zero.mp hn)
    subst hs
    rw [bitsScan] at h
    simp only [dif_pos rfl] at h
    injection h with h
    subst h
    refine ⟨by rw [cTokenize]; rfl, by simp, by simp⟩
  | succ m ih =>
    intro s i l hn h
    by_cases hs : s = []
    · subst hs
      rw [bitsScan] at h
      simp only [dif_pos rfl] at h
      injection h with h
      subst h
      refine ⟨by rw [cTokenize]; rfl, by simp, by simp⟩
    · rw [bitsScan] at h
      rw [dif_neg hs] at h
      split at h
      · exact absurd h (by simp)
      · rename_i j hf
        split at h
        · rename_i l' hrec
          injection h with h
          subst h
          have hlen : ((s.dropWhile isSpaceC).dropWhile (fun ch => ¬isSpaceC ch)).length ≤ m := by
            have := drop2_length_lt isSpaceC s hs
            omega
          obtain ⟨ih1, ih2, ih3⟩ := ih _ (j + 1) l' hlen hrec
          obtain ⟨hij, hget⟩ := findFrom_spec names i _ j hf
          refine ⟨?_, ?_, ?_⟩
          · rw [cTokenize, if_neg hs]
            simp only [List.map_cons]
            rw [ih1]
          · simp only [List.map_cons]
            rw [List.chain'_cons']
            constructor
            · intro y hy
              cases l' with
              | nil => simp at hy
              | cons p t =>
                simp only [List.map_cons, List.head?_cons, Option.mem_def,
                  Option.some.injEq] at hy
                subst hy
                have := (ih3 p (List.mem_cons_self p t)).1
                omega
            · exact ih2
          · intro x hx
            rcases List.mem_cons.mp hx with rfl | hx'
            · exact ⟨hij, hget⟩
            · obtain ⟨h1, h2⟩ := ih3 x hx'
              exact ⟨by omega, h2⟩
        · rename_i e hrec
          exact absurd h (by simp)

/-- The only failure the bits scan produces is `LYE_INVAL`. -/
theorem bitsScan_error_spec (names : List (List Char)) :
    ∀ (n : Nat) (s : List Char) (i : Nat) (e : Err), s.length ≤ n →
      bitsScan names s i = .error e → e = .INVAL := by
  intro n
  induction n with
  | zero =>
    intro s i e hn h
    have hs : s = [] := List.length_eq_zero.mp (Nat.le_zero.mp hn)
    subst hs
    rw [bitsScan] at h
    simp only [dif_pos rfl] at h
    exact absurd h (by simp)
  | succ m ih =>
    intro s i e hn h
    by_cases hs : s = []
    · subst hs
      rw [bitsScan] at h
      simp only [dif_pos rfl] at h
      exact absurd h (by simp)
    · rw [bitsScan] at h
      rw [dif_neg hs] at h
      split at h
      · injection h with h
        exact h.symm
      · rename_i j hf
        split at h
        · exact absurd h (by simp)
        · rename_i e' hrec
          injection h with h
          subst h
          have hlen : ((s.dropWhile isSpaceC).dropWhile (fun ch => ¬isSpaceC ch)).length ≤ m := by
            have := drop2_length_lt isSpaceC s hs
            omega
          exact ih _ (j + 1) e' hlen hrec

/-- C10: the bits decoder scans the resolved bit definitions with one
    monotonically advancing index: a successful decode maps the
    whitespace-separated tokens to strictly increasing definition indices,
    and a token naming no definition, a duplicated token, or a token whose
    definition precedes that of an earlier token each make decoding fail
    with `INVAL`. -/
theorem bits_tokens_ascend_positions :
    (∀ (names : List (List Char)) (s : String) (l : List (List Char × Nat)),
        xml_get_value_bits names s = .ok l →
        l.map Prod.fst = cTokenize s.toList
        ∧ List.Chain' (· < ·) (l.map Prod.snd)
        ∧ ∀ x ∈ l, names[x.2]? = some x.1)
    ∧ (∀ (names : List (List Char)) (s : String) (t : List Char),
        t ∈ cTokenize s.toList → (∀ j : Nat, names[j]? ≠ some t) →
        xml_get_value_bits names s = .error .INVAL)
    ∧ (∀ (names : List (List Char)) (s : String) (t : List Char) (k1 k2 : Nat),
        names.Nodup → k1 < k2 →
        (cTokenize s.toList)[k1]? = some t → (cTokenize s.toList)[k2]? = some t →
        xml_get_value_bits names s = .error .INVAL)
    ∧ (∀ (names : List (List Char)) (s : String) (a b : Nat) (ta tb : List Char)
          (k1 k2 : Nat),
        names.Nodup → a < b → names[a]? = some ta → names[b]? = some tb →
        (cTokenize s.toList)[k1]? = some tb → (cTokenize s.toList)[k2]? = some ta →
        k1 < k2 →
        xml_get_value_bits names s = .error .INVAL) := by
  have hok : ∀ (names : List (List Char)) (s : String) (l : List (List Char × Nat)),
      xml_get_value_bits names s = .ok l →
      l.map Prod.fst = cTokenize s.toList
      ∧ List.Chain' (· < ·) (l.map Prod.snd)
      ∧ ∀ x ∈ l, 0 ≤ x.2 ∧ names[x.2]? = some x.1 := by
    intro names s l h
    exact bitsScan_ok_spec names s.toList.length s.toList 0 l (le_refl _) h
  have herr : ∀ (names : List (List Char)) (s : String),
      (¬∃ l, xml_get_value_bits names s = .ok l) →
      xml_get_value_bits names s = .error .INVAL := by
    intro names s hno
    cases hcase : xml_get_value_bits names s with
    | ok l => exact absurd ⟨l, hcase⟩ hno
    | error e =>
      exact congrArg Except.error
        (bitsScan_error_spec names s.toList.length s.toList 0 e (le_refl _) hcase)
  have hpair : ∀ (names : List (List Char)) (s : String) (l : List (List Char × Nat)),
      xml_get_value_bits names s = .ok l →
      ∀ (k1 k2 : Nat) (x1 x2 : List Char × Nat), k1 < k2 →
        l[k1]? = some x1 → l[k2]? = some x2 → x1.2 < x2.2 := by
    intro names s l h k1 k2 x1 x2 hk h1 h2
    obtain ⟨-, hch, -⟩ := hok names s l h
    have hpw : (l.map Prod.snd).Pairwise (· < ·) := List.chain'_iff_pairwise.mp hch
    obtain ⟨hb1, he1⟩ := List.getElem?_eq_some_iff.mp h1
    obtain ⟨hb2, he2⟩ := List.getElem?_eq_some_iff.mp h2
    have := List.pairwise_iff_getElem.mp hpw k1 k2 (by simpa using hb1)
      (by simpa using hb2) hk
    simpa [he1, he2] using this
  refine ⟨fun names s l h => ⟨(hok names s l h).1, (hok names s l h).2.1,
      fun x hx => ((hok names s l h).2.2 x hx).2⟩, ?_, ?_, ?_⟩
  · intro names s t hmem hnot
    apply herr
    rintro ⟨l, hl⟩
    obtain ⟨hmap, -, hidx⟩ := hok names s l hl
    rw [← hmap] at hmem
    obtain ⟨x, hx, hfst⟩ := List.mem_map.mp hmem
    exact hnot x.2 (by rw [(hidx x hx).2, hfst])
  · intro names s t k1 k2 hnd hk h1 h2
    apply herr
    rintro ⟨l, hl⟩
    obtain ⟨hmap, -, hidx⟩ := hok names s l hl
    rw [← hmap] at h1 h2
    rw [List.getElem?_map] at h1 h2
    obtain ⟨x1, hx1, hfst1⟩ := Option.map_eq_some'.mp h1
    obtain ⟨x2, hx2, hfst2⟩ := Option.map_eq_some'.mp h2
    have hj : x1.2 < x2.2 := hpair names s l hl k1 k2 x1 x2 hk hx1 hx2
    have hm1 : x1 ∈ l := List.getElem?_mem hx1
    have hm2 : x2 ∈ l := List.getElem?_mem hx2
    have hn1 : names[x1.2]? = some t := by rw [(hidx x1 hm1).2, hfst1]
    have hn2 : names[x2.2]? = some t := by rw [(hidx x2 hm2).2, hfst2]
    have hlt : x1.2 < names.length := (List.getElem?_eq_some_iff.mp hn1).1
    have : x1.2 = x2.2 := List.getElem?_inj hlt hnd (hn1.trans hn2.symm)
    omega
  · intro names s a b ta tb k1 k2 hnd hab ha hb h1 h2 hk
    apply herr
    rintro ⟨l, hl⟩
    obtain ⟨hmap, -, hidx⟩ := hok names s l hl
    rw [← hmap] at h1 h2
    rw [List.getElem?_map] at h1 h2
    obtain ⟨x1, hx1, hfst1⟩ := Option.map_eq_some'.mp h1
    obtain ⟨x2, hx2, hfst2⟩ := Option.map_eq_some'.mp h2
    have hj : x1.2 < x2.2 := hpair names s l hl k1 k2 x1 x2 hk hx1 hx2
    have hm1 : x1 ∈ l := List.getElem?_mem hx1
    have hm2 : x2 ∈ l := List.getElem?_mem hx2
    have hn1 : names[x1.2]? = some tb := by rw [(hidx x1 hm1).2, hfst1]
    have hn2 : names[x2.2]? = some ta := by rw [(hidx x2 hm2).2, hfst2]
    have hlt1 : x1.2 < names.length := (List.getElem?_eq_some_iff.mp hn1).1
    have hlt2 : x2.2 < names.length := (List.getElem?_eq_some_iff.mp hn2).1
    have hx1b : x1.2 = b := List.getElem?_inj hlt1 hnd (hn1.trans hb.symm)
    have hx2a : x2.2 = a := List.getElem?_inj hlt2 hnd (hn2.trans ha.symm)
    omega

/-- C10 witness: the duplicated bit name "x" in the value "x x" fails with
    `INVAL`. -/
theorem bits_tokens_ascend_positions_witness :
    xml_get_value_bits [['x']] "x x" = .error .INVAL :=
  bits_tokens_ascend_positions.2.2.1 [['x']] "x x" ['x'] 0 1 (by decide) (by decide)
    (by simp [cTokenize, isSpaceC]) (by simp [cTokenize, isSpaceC])

/-- C9 witness: inserting "2016-02-02" after "2015-01-01" swaps the
    records, moving the old description and reference with the old date. -/
theorem revision_newest_first_witness :
    (yang_read_revision [⟨"2015-01-01", some "d", some "r"⟩] "2016-02-02").1.head?
        = some ⟨"2016-02-02", none, none⟩
      ∧ (yang_read_revision [⟨"2015-01-01", some "d", some "r"⟩] "2016-02-02").1.getLast?
        = some ⟨"2015-01-01", some "d", some "r"⟩
      ∧ (yang_read_revision [⟨"2015-01-01", some "d", some "r"⟩] "2016-02-02").2 = 0 :=
  revision_newest_first.2 ⟨"2015-01-01", some "d", some "r"⟩ [] "2016-02-02"
    (by unfold revLt; decide)

theorem specNext_append (l₁ l₂ : List (UPath × Nat)) (prev : Option UPath) (found : Bool) :
    specNext (l₁ ++ l₂) prev found =
      match specNext l₁ prev found with
      | (some x, f) => (some x, f)
      | (Option.none, f) => specNext l₂ prev f := by
  cases prev with
  | none =>
    cases l₁ with
    | nil => rfl
    | cons x rest => rfl
  | some p =>
    cases found with
    | true =>
      cases l₁ with
      | nil => rfl
      | cons x rest => rfl
    | false =>
      induction l₁ with
      | nil => rfl
      | cons x rest ih =>
        show specFind p ((x :: rest) ++ l₂)
          = (match specFind p (x :: rest) with
             | (some x, f) => (some x, f)
             | (Option.none, f) => specNext l₂ (some p) f)
        by_cases hx : x.1 = p
        · simp only [List.cons_append, specFind, if_pos hx]
          cases rest with
          | nil => rfl
          | cons y t => rfl
        · simp only [List.cons_append, specFind, if_neg hx]
          exact ih



mutual
theorem gnextT_spec : ∀ (ctx : UPath) (t : Ty) (prev : Option UPath) (found : Bool),
    gnextT ctx t prev found = specNext (flattenT ctx t) prev found
  | ctx, .atom b, prev, found => by
    cases prev with
    | none => simp [gnextT, flattenT, specNext]
    | some p =>
      cases found with
      | true => simp [gnextT, flattenT, specNext]
      | false =>
        by_cases hp : p = ctx
        · subst hp
          simp [gnextT, flattenT, specNext, specFind]
        · simp [gnextT, flattenT, specNext, specFind, hp]
          rw [if_neg (fun h => hp h.symm)]
  | ctx, .uni alts der, prev, found => by
    have hL := gnextL_spec ctx 0 alts prev found
    have key : flattenT ctx (.uni alts der) = flattenL ctx 0 alts ++ flattenD ctx der := rfl
    rw [key, specNext_append]
    show (match gnextL ctx 0 alts prev found with
          | (some x, f) => (some x, f)
          | (Option.none, f) => gnextD ctx der prev f) = _
    rw [hL]
    rcases hA : specNext (flattenL ctx 0 alts) prev found with ⟨r, f⟩
    cases r with
    | none => exact gnextD_spec ctx der prev f
    | some x => rfl

theorem gnextL_spec : ∀ (ctx : UPath) (i : Nat) (l : TyList) (prev : Option UPath)
      (found : Bool),
    gnextL ctx i l prev found = specNext (flattenL ctx i l) prev found
  | ctx, i, .nil, prev, found => by
    cases prev with
    | none => rfl
    | some p => cases found <;> rfl
  | ctx, i, .cons a rest, prev, found => by
    have hT := gnextT_spec (ctx ++ [some i]) a prev found
    have key : flattenL ctx i (.cons a rest)
        = flattenT (ctx ++ [some i]) a ++ flattenL ctx (i + 1) rest := rfl
    rw [key, specNext_append]
    show (match gnextT (ctx ++ [some i]) a prev found with
          | (some x, f) => (some x, f)
          | (Option.none, f) => gnextL ctx (i + 1) rest prev f) = _
    rw [hT]
    rcases hA : specNext (flattenT (ctx ++ [some i]) a) prev found with ⟨r, f⟩
    cases r with
    | none => exact gnextL_spec ctx (i + 1) rest prev f
    | some x => rfl

theorem gnextD_spec : ∀ (ctx : UPath) (der : TyDer) (prev : Option UPath) (found : Bool),
    gnextD ctx der prev found = specNext (flattenD ctx der) prev found
  | ctx, .none, prev, found => by
    cases prev with
    | none => rfl
    | some p => cases found <;> rfl
  | ctx, .some d, prev, found => gnextT_spec (ctx ++ [Option.none]) d prev found
end



mutual
theorem flattenT_shape : ∀ (ctx : UPath) (t : Ty) (x : UPath × Nat), x ∈ flattenT ctx t →
    ∃ ext : UPath, x.1 = ctx ++ ext
  | ctx, .atom b, x, hx => by
    rw [show flattenT ctx (.atom b) = [(ctx, b)] from rfl] at hx
    rcases List.mem_singleton.mp hx with rfl
    exact ⟨[], by simp⟩
  | ctx, .uni alts der, x, hx => by
    rw [show flattenT ctx (.uni alts der) = flattenL ctx 0 alts ++ flattenD ctx der
      from rfl] at hx
    rcases List.mem_append.mp hx with h | h
    · obtain ⟨j, ext, -, he⟩ := flattenL_shape ctx 0 alts x h
      exact ⟨some j :: ext, he⟩
    · obtain ⟨ext, he⟩ := flattenD_shape ctx der x h
      exact ⟨Option.none :: ext, he⟩

theorem flattenL_shape : ∀ (ctx : UPath) (i : Nat) (l : TyList) (x : UPath × Nat),
    x ∈ flattenL ctx i l →
    ∃ (j : Nat) (ext : UPath), i ≤ j ∧ x.1 = ctx ++ some j :: ext
  | ctx, i, .nil, x, hx => absurd hx (by rw [show flattenL ctx i .nil = [] from rfl]; simp)
  | ctx, i, .cons a rest, x, hx => by
    rw [show flattenL ctx i (.cons a rest)
        = flattenT (ctx ++ [some i]) a ++ flattenL ctx (i + 1) rest from rfl] at hx
    rcases List.mem_append.mp hx with h | h
    · obtain ⟨ext, he⟩ := flattenT_shape (ctx ++ [some i]) a x h
      exact ⟨i, ext, le_refl i, by rw [he]; simp⟩
    · obtain ⟨j, ext, hj, he⟩ := flattenL_shape ctx (i + 1) rest x h
      exact ⟨j, ext, by omega, he⟩

theorem flattenD_shape : ∀ (ctx : UPath) (der : TyDer) (x : UPath × Nat),
    x ∈ flattenD ctx der →
    ∃ ext : UPath, x.1 = ctx ++ Option.none :: ext
  | ctx, .none, x, hx => absurd hx (by rw [show flattenD ctx .none = [] from rfl]; simp)
  | ctx, .some d, x, hx => by
    rw [show flattenD ctx (.some d) = flattenT (ctx ++ [Option.none]) d from rfl] at hx
    obtain ⟨ext, he⟩ := flattenT_shape (ctx ++ [Option.none]) d x hx
    exact ⟨ext, by rw [he]; simp⟩
end

/-- Heads following a common prefix agree. -/
theorem head_after_ctx {ctx : UPath} {a b : UStep} {u v : UPath}
    (h : ctx ++ a :: u = ctx ++ b :: v) : a = b := by
  have := List.append_cancel_left h
  injection this

mutual
theorem flattenT_nodup : ∀ (ctx : UPath) (t : Ty), ((flattenT ctx t).map Prod.fst).Nodup
  | ctx, .atom b => by
    rw [show flattenT ctx (.atom b) = [(ctx, b)] from rfl]
    simp
  | ctx, .uni alts der => by
    rw [show flattenT ctx (.uni alts der) = flattenL ctx 0 alts ++ flattenD ctx der
      from rfl]
    rw [List.map_append]
    refine List.Nodup.append (flattenL_nodup ctx 0 alts) (flattenD_nodup ctx der) ?_
    intro p hp1 hp2
    obtain ⟨x1, hx1, he1⟩ := List.mem_map.mp hp1
    obtain ⟨x2, hx2, he2⟩ := List.mem_map.mp hp2
    obtain ⟨j, ext, -, hs1⟩ := flattenL_shape ctx 0 alts x1 hx1
    obtain ⟨ext', hs2⟩ := flattenD_shape ctx der x2 hx2
    have e1 : p = ctx ++ some j :: ext := he1.symm.trans hs1
    have e2 : p = ctx ++ Option.none :: ext' := he2.symm.trans hs2
    have : some j = Option.none := head_after_ctx (e1.symm.trans e2)
    exact absurd this (by simp)

theorem flattenL_nodup : ∀ (ctx : UPath) (i : Nat) (l : TyList),
    ((flattenL ctx i l).map Prod.fst).Nodup
  | ctx, i, .nil => by
    rw [show flattenL ctx i .nil = [] from rfl]
    simp
  | ctx, i, .cons a rest => by
    rw [show flattenL ctx i (.cons a rest)
        = flattenT (ctx ++ [some i]) a ++ flattenL ctx (i + 1) rest from rfl]
    rw [List.map_append]
    refine List.Nodup.append (flattenT_nodup (ctx ++ [some i]) a)
      (flattenL_nodup ctx (i + 1) rest) ?_
    intro p hp1 hp2
    obtain ⟨x1, hx1, he1⟩ := List.mem_map.mp hp1
    obtain ⟨x2, hx2, he2⟩ := List.mem_map.mp hp2
    obtain ⟨ext, hs1⟩ := flattenT_shape (ctx ++ [some i]) a x1 hx1
    obtain ⟨j, ext', hj, hs2⟩ := flattenL_shape ctx (i + 1) rest x2 hx2
    have hs1' : x1.1 = ctx ++ some i :: ext := by rw [hs1]; simp
    have e1 : p = ctx ++ some i :: ext := he1.symm.trans hs1'
    have e2 : p = ctx ++ some j :: ext' := he2.symm.trans hs2
    have : some i = some j := head_after_ctx (e1.symm.trans e2)
    injection this with hij
    omega

theorem flattenD_nodup : ∀ (ctx : UPath) (der : TyDer),
    ((flattenD ctx der).map Prod.fst).Nodup
  | ctx, .none => by
    rw [show flattenD ctx .none = [] from rfl]
    simp
  | ctx, .some d => flattenT_nodup (ctx ++ [Option.none]) d
end



theorem specFind_after (q : UPath) (b : Nat) :
    ∀ (l₁ l₂ : List (UPath × Nat)), q ∉ l₁.map Prod.fst →
      specFind q (l₁ ++ (q, b) :: l₂) = (l₂.head?, true) := by
  intro l₁
  induction l₁ with
  | nil =>
    intro l₂ hq
    show specFind q ((q, b) :: l₂) = _
    simp [specFind]
  | cons x rest ih =>
    intro l₂ hq
    show specFind q ((x :: (rest ++ (q, b) :: l₂))) = _
    have hx : ¬x.1 = q := by
      intro h
      exact hq (by simp [← h])
    simp only [specFind, if_neg hx]
    exact ih l₂ (fun h => hq (by simp [h]))

theorem unionLoop_spec (t : Ty) (dec : UPath → Bool) :
    ∀ (l₂ : List (UPath × Nat)) (fuel : Nat) (prev : Option UPath)
      (l₁ : List (UPath × Nat)),
      flattenT [] t = l₁ ++ l₂ →
      l₂.length < fuel →
      (gnextT [] t prev false).1 = l₂.head? →
      unionLoop t dec fuel prev = l₂.find? (fun x => dec x.1) := by
  intro l₂
  induction l₂ with
  | nil =>
    intro fuel prev l₁ hflat hfuel hnext
    cases fuel with
    | zero => omega
    | succ f =>
      rw [unionLoop]
      rw [hnext]
      rfl
  | cons hd l₂' ih =>
    intro fuel prev l₁ hflat hfuel hnext
    obtain ⟨q, b⟩ := hd
    cases fuel with
    | zero => omega
    | succ f =>
      rw [unionLoop]
      rw [hnext]
      show (if dec q then some (q, b) else unionLoop t dec f (some q))
        = List.find? (fun x => dec x.1) ((q, b) :: l₂')
      by_cases hd : dec q
      · rw [if_pos hd]
        rw [List.find?_cons_of_pos _ (by simpa using hd)]
      · rw [if_neg hd]
        rw [List.find?_cons_of_neg _ (by simpa using hd)]
        apply ih f (some q) (l₁ ++ [(q, b)])
        · rw [hflat]
          simp
        · simp only [List.length_cons] at hfuel
          omega
        · rw [gnextT_spec]
          have hnd : ((flattenT [] t).map Prod.fst).Nodup := flattenT_nodup [] t
          rw [hflat] at hnd
          have hq : q ∉ l₁.map Prod.fst := by
            rw [List.map_append] at hnd
            have hdisj := (List.nodup_append.mp hnd).2.2
            intro hmem
            exact hdisj hmem (by simp)
          rw [show specNext (flattenT [] t) (some q) false
              = specFind q (flattenT [] t) from rfl]
          rw [hflat, specFind_after q b l₁ l₂' hq]

/-- C3: decoding a union leaf chooses the first alternative, in the order
    `get_next_union_type` enumerates them (members in declared order with
    nested unions flattened in place, then the derivation chain), whose
    recursive decode accepts the value, and stores that alternative's base;
    when no alternative accepts, the branch fails with `INVAL`.  In
    particular when two alternatives both accept, the first listed wins. -/
theorem union_first_accepting_alternative (t : Ty) (dec : UPath → Bool) :
    xml_get_value_union t dec =
      match (flattenT [] t).find? (fun x => dec x.1) with
      | some x => .ok x.2
      | Option.none => .error .INVAL := by
  unfold xml_get_value_union
  rw [unionLoop_spec t dec (flattenT [] t) ((flattenT [] t).length + 1) Option.none []
    rfl (by omega) (by rw [gnextT_spec]; rfl)]

end Libyang
